import Mathlib

/-!
Verification of the filesystem object-storage engine
(`nvflare/app_common/storages/filesystem_storage.py`).

The filesystem is modelled as a finite tree of named entries: a node is
either a regular file holding its byte content (bytes are modelled as a
`String`, i.e. an opaque finite sequence), or a directory holding a list of
named children in directory order.  Paths are lists of name segments,
rooted at the storage root; since `FilesystemStorage.__init__` requires an
absolute `root_dir`, every resolved object path is absolute, so the
`os.path.isabs` conjunct of `_object_exists` is always satisfied and is not
represented separately.
-/

namespace FsStore

inductive FNode where
  | file : String → FNode
  | dir : List (String × FNode) → FNode

/-- Follow a path from a node; `os.path` queries are derived from this. -/
def lookup : FNode → List String → Option FNode
  | n, [] => some n
  | .file _, _ :: _ => none
  | .dir es, s :: rest =>
    match List.lookup s es with
    | some n => lookup n rest
    | none => none

/-- `os.path.isfile` -/
def isFile (fs : FNode) (p : List String) : Bool :=
  match lookup fs p with
  | some (.file _) => true
  | _ => false

/-- `os.path.isdir` -/
def isDir (fs : FNode) (p : List String) : Bool :=
  match lookup fs p with
  | some (.dir _) => true
  | _ => false

/-- `os.path.exists` -/
def pathExists (fs : FNode) (p : List String) : Bool :=
  (lookup fs p).isSome

/-- `os.listdir` / `os.scandir`: names of the entries of a directory. -/
def listdir (fs : FNode) (p : List String) : List String :=
  match lookup fs p with
  | some (.dir es) => es.map (fun e => e.1)
  | _ => []

/-- Contents of a regular file, if the path denotes one. -/
def readFile (fs : FNode) (p : List String) : Option String :=
  match lookup fs p with
  | some (.file c) => some c
  | _ => none

/-- Replace the first entry called `x` (keeping its position), else append. -/
def setEntry (x : String) (n : FNode) : List (String × FNode) → List (String × FNode)
  | [] => [(x, n)]
  | e :: es => if e.1 = x then (x, n) :: es else e :: setEntry x n es

/-- Remove every entry called `x` (directory entries have unique names). -/
def removeEntry (x : String) (es : List (String × FNode)) : List (String × FNode) :=
  es.filter (fun e => e.1 ≠ x)

/-- Rewrite the entry list of the directory at `p` (fails if `p` does not
denote an existing directory, or if the rewrite itself fails). -/
def withDir (fs : FNode) (p : List String)
    (f : List (String × FNode) → Option (List (String × FNode))) : Option FNode :=
  match fs, p with
  | .dir es, [] => (f es).map .dir
  | .dir es, s :: rest =>
    match List.lookup s es with
    | some n => (withDir n rest f).map (fun n2 => .dir (setEntry s n2 es))
    | none => none
  | .file _, _ => none

/-- `Path(...).mkdir(parents=True, exist_ok=True)`: create the chain of
directories along `p`; fails when some component exists as a regular file. -/
def mkdirp : FNode → List String → Option FNode
  | .file _, _ => none
  | .dir es, [] => some (.dir es)
  | .dir es, s :: rest =>
    match List.lookup s es with
    | some n => (mkdirp n rest).map (fun n2 => .dir (setEntry s n2 es))
    | none => (mkdirp (.dir []) rest).map (fun n2 => .dir (setEntry s n2 es))

/-- `open(path, "wb")` on `p/name` followed by a full write of `c`: the
parent directory must already exist, and the target must not be a
directory; an existing regular file is truncated and replaced. -/
def openW (fs : FNode) (p : List String) (name c : String) : Option FNode :=
  withDir fs p (fun es =>
    match List.lookup name es with
    | some (.dir _) => none
    | _ => some (setEntry name (.file c) es))

/-- `os.rename` of two sibling regular files `p/src` → `p/dst` (the only
renames the engine performs); atomically replaces `dst` if it is a file. -/
def renameIn (fs : FNode) (p : List String) (src dst : String) : Option FNode :=
  withDir fs p (fun es =>
    match List.lookup src es with
    | some (.file c) =>
      match List.lookup dst es with
      | some (.dir _) => none
      | _ => some (setEntry dst (.file c) (removeEntry src es))
    | _ => none)

/-- `os.remove` of the regular file `p/name`. -/
def removeFileIn (fs : FNode) (p : List String) (name : String) : Option FNode :=
  withDir fs p (fun es =>
    match List.lookup name es with
    | some (.file _) => some (removeEntry name es)
    | _ => none)

/-- `shutil.rmtree`: remove the whole subtree at `p`. -/
def removePath : FNode → List String → Option FNode
  | .dir es, [s] =>
    if (List.lookup s es).isSome then some (.dir (removeEntry s es)) else none
  | .dir es, s :: rest =>
    match List.lookup s es with
    | some n => (removePath n rest).map (fun n2 => .dir (setEntry s n2 es))
    | none => none
  | _, _ => none

/-- Walking `p` never meets a regular file (so `mkdir -p` can succeed). -/
def noFileOnPath : FNode → List String → Bool
  | .file _, _ => false
  | .dir _, [] => true
  | .dir es, s :: rest =>
    match List.lookup s es with
    | some n => noFileOnPath n rest
    | none => true

/-!
## Metadata codec (`_encode_meta` / `_decode_meta`)

Metadata is a Python dict with string keys.  The embedding covers the
JSON-representable fragment the claims exercise: string and (nonnegative)
integer values, over the printable-ASCII alphabet without quote or
backslash characters (`plainChar`), so that neither `json.dumps` nor
`repr` needs escape sequences.  `json.dumps` with its default separators
and Python `repr` of a dict print the same grammar up to the quote
character, so both serializers and both parsers (`json.loads` restricted
to the documents these serializers emit, and `ast.literal_eval` on dict
literals) are given as one quote-parametric definition.
-/

def dquote : Char := Char.ofNat 34
def squote : Char := Char.ofNat 39
def lbrace : Char := Char.ofNat 123
def rbrace : Char := Char.ofNat 125
def commaC : Char := Char.ofNat 44
def spaceC : Char := Char.ofNat 32
def colonC : Char := Char.ofNat 58
def backslashC : Char := Char.ofNat 92

/-- A metadata value: a string or a nonnegative integer. -/
inductive MValue where
  | s : String → MValue
  | n : Nat → MValue
deriving DecidableEq

/-- A metadata mapping in dict insertion order. -/
abbrev Meta := List (String × MValue)

def plainChar (c : Char) : Bool :=
  32 ≤ c.toNat && c.toNat ≤ 126 && c ≠ dquote && c ≠ squote && c ≠ backslashC

def plainStr (s : String) : Bool := s.data.all plainChar

def wfVal : MValue → Bool
  | .s v => plainStr v
  | .n _ => true

def wfMeta (m : Meta) : Bool := m.all (fun e => plainStr e.1 && wfVal e.2)

def digitChar (d : Nat) : Char := Char.ofNat (48 + d % 10)

/-- Decimal digits of `k`, most significant first (fuelled so that it is
structurally recursive; `natChars` supplies enough fuel). -/
def natCharsAux : Nat → Nat → List Char
  | 0, _ => []
  | fuel + 1, k =>
    if k < 10 then [digitChar k] else natCharsAux fuel (k / 10) ++ [digitChar (k % 10)]

def natChars (k : Nat) : List Char := natCharsAux (k + 1) k

/-- Serialize one value, with `q` as the string-quote character. -/
def dumpVal (q : Char) : MValue → List Char
  | .s v => q :: v.data ++ [q]
  | .n k => natChars k

def dumpEntry (q : Char) (e : String × MValue) : List Char :=
  q :: e.1.data ++ [q] ++ colonC :: spaceC :: dumpVal q e.2

def dumpEntries (q : Char) : Meta → List Char
  | [] => []
  | [e] => dumpEntry q e
  | e :: es => dumpEntry q e ++ commaC :: spaceC :: dumpEntries q es

def dumpDict (q : Char) (m : Meta) : List Char := lbrace :: dumpEntries q m ++ [rbrace]

/-- `json.dumps(meta)` (default separators; the UTF-8 encoding step is the
identity on this alphabet). -/
def jsonDumps (m : Meta) : String := String.mk (dumpDict dquote m)

/-- Python `repr`/`str` of the dict (single-quoted strings). -/
def pyRepr (m : Meta) : String := String.mk (dumpDict squote m)

/-- `_encode_meta`: `json.dumps(meta).encode("utf-8")`. -/
def encodeMeta (m : Meta) : String := jsonDumps m

/-- Modelled from the spec: the legacy string-wrapped wire shape is not
produced by any code under `src/` (only `_decode_meta`'s legacy branch
consumes it); per the spec it is the structured document "itself textually
quoted and embedded inside a further textual layer", i.e. `json.dumps`
applied to the textual `repr` of the dict, which on the `plainChar`
alphabet needs no escapes. -/
def legacyEncodeMeta (m : Meta) : String :=
  String.mk (dquote :: (pyRepr m).data ++ [dquote])

/-- Parse a `q`-quoted string (no escapes occur in this fragment). -/
def parseQStr (q : Char) : List Char → Option (String × List Char)
  | c :: rest =>
    if c = q then
      match rest.dropWhile (fun d => d ≠ q) with
      | d :: rest2 =>
        if d = q then some (String.mk (rest.takeWhile (fun d2 => d2 ≠ q)), rest2) else none
      | [] => none
    else none
  | [] => none

def digitVal (c : Char) : Nat := c.toNat - 48

def charsToNat (l : List Char) : Nat := l.foldl (fun a c => 10 * a + digitVal c) 0

def parseNatChars (cs : List Char) : Option (Nat × List Char) :=
  let digits := cs.takeWhile Char.isDigit
  if digits.isEmpty then none
  else some (charsToNat digits, cs.dropWhile Char.isDigit)

def parseVal (q : Char) (cs : List Char) : Option (MValue × List Char) :=
  match cs with
  | c :: _ =>
    if c = q then (parseQStr q cs).map (fun r => (MValue.s r.1, r.2))
    else (parseNatChars cs).map (fun r => (MValue.n r.1, r.2))
  | [] => none

def expectChars : List Char → List Char → Option (List Char)
  | [], cs => some cs
  | l :: ls, c :: rest => if c = l then expectChars ls rest else none
  | _ :: _, [] => none

/-- Parse `key: value` entries up to and including the closing brace. -/
def parseEntries (q : Char) : Nat → List Char → Option (Meta × List Char)
  | 0, _ => none
  | fuel + 1, cs =>
    match parseQStr q cs with
    | none => none
    | some (k, r1) =>
      match expectChars [colonC, spaceC] r1 with
      | none => none
      | some r2 =>
        match parseVal q r2 with
        | none => none
        | some (v, r3) =>
          match r3 with
          | c :: rest =>
            if c = rbrace then some ([(k, v)], rest)
            else if c = commaC then
              match rest with
              | c2 :: rest2 =>
                if c2 = spaceC then
                  match parseEntries q fuel rest2 with
                  | some (m, r) => some ((k, v) :: m, r)
                  | none => none
                else none
              | [] => none
            else none
          | [] => none

def parseDict (q : Char) (cs : List Char) : Option (Meta × List Char) :=
  match cs with
  | c :: rest =>
    if c = lbrace then
      match rest with
      | c2 :: rest2 =>
        if c2 = rbrace then some ([], rest2) else parseEntries q rest.length rest
      | [] => none
    else none
  | [] => none

/-- Parse a whole document that must be exactly one dict. -/
def parseDictDoc (q : Char) (s : String) : Option Meta :=
  match parseDict q s.data with
  | some (m, []) => some m
  | _ => none

/-- `json.loads` on a document that is exactly one JSON string. -/
def jsonLoadsStr (s : String) : Option String :=
  match parseQStr dquote s.data with
  | some (v, []) => some v
  | _ => none

/-- `ast.literal_eval` on a Python dict literal. -/
def literalEvalDict (s : String) : Option Meta := parseDictDoc squote s

/-- `json.loads` on a document that is exactly one JSON dict. -/
def jsonLoadsDict (s : String) : Option Meta := parseDictDoc dquote s

/-- `s.startswith('"')` -/
def startsWithQuote (s : String) : Bool :=
  match s.data with
  | c :: _ => c = dquote
  | [] => false

/-- `_decode_meta`: legacy string-wrapped shape iff the decoded text starts
with a quote character, else direct JSON; a parse failure is a decode
error (`None` here, an uncaught exception in Python). -/
def decodeMeta (s : String) : Option Meta :=
  if startsWithQuote s then (jsonLoadsStr s).bind literalEvalDict
  else jsonLoadsDict s

/-!
## Path resolver (`FilesystemStorage._object_path`)

`_object_path` is `os.path.join(self.root_dir, uri.lstrip(self.uri_root))`,
modelled at string level.
-/

/-- Python `str.lstrip(chars)`: remove the leading characters that occur
anywhere in `chars` (a character-set strip, not a prefix strip). -/
def pyLstrip (s chars : String) : String :=
  String.mk (s.data.dropWhile (fun c => chars.data.contains c))

/-- `str.startswith(pre)` (character-list form of `String.startsWith`). -/
def strStartsWith (s pre : String) : Bool := pre.data.isPrefixOf s.data

/-- `str.endswith(suff)` (character-list form of `String.endsWith`). -/
def strEndsWith (s suff : String) : Bool := suff.data.isSuffixOf s.data

/-- Remove the first `n` characters (character-list form of `String.drop`). -/
def strDrop (s : String) (n : Nat) : String := String.mk (s.data.drop n)

/-- `posixpath.join` on two components. -/
def osJoin (a b : String) : String :=
  if strStartsWith b "/" then b
  else if a = "" || strEndsWith a "/" then a ++ b
  else a ++ "/" ++ b

/-- `FilesystemStorage._object_path(uri)`. -/
def objectPath (rootDir uriRoot uri : String) : String :=
  osJoin rootDir (pyLstrip uri uriRoot)

/-- The spec's reading of `_object_path`: exact removal of the `uri_root`
prefix from the left of the URI, no other characters removed. -/
def objectPathClaimed (rootDir uriRoot uri : String) : String :=
  osJoin rootDir (if strStartsWith uri uriRoot then strDrop uri uriRoot.length else uri)

/-!
## Object store engine

Each operation takes the filesystem and the already-resolved object
directory path `p` (`full_uri`).  Mutating operations return the new
filesystem in `.ok`; a raised exception is an `.error` (the Python raise
happens before any mutation on every modelled error path, except the
create/write internals whose intermediate states the stepwise `write`
model below captures).  Error constructors follow the spec's semantic
names; in the source they are all `StorageException` with a message.
-/

inductive StorageErr where
  | alreadyExists : StorageErr
  | nonEmptyDirectory : StorageErr
  | notFound : StorageErr
  | invalidPath : StorageErr
  | decodeError : StorageErr
  | ioFailure : StorageErr
deriving DecidableEq

/-- `_object_exists(uri)`: the directory, its `data` file and its `meta`
file must all exist (`os.path.isabs` holds for every engine-resolved path,
see the module comment). -/
def object_exists (fs : FNode) (p : List String) : Bool :=
  isDir fs p && isFile fs (p ++ ["data"]) && isFile fs (p ++ ["meta"])

/-- Net effect of a successful `_write(path, content)`: ensure the parent
directory exists, then the content lands at `p/name` (the temporary file
it writes is renamed onto the target within the call; the stepwise model
`write` below exposes the temporary file and the failure paths). -/
def writeFile (fs : FNode) (p : List String) (name c : String) : Option FNode :=
  (mkdirp fs p).bind (fun fs0 => openW fs0 p name c)

/-- `FilesystemStorage.create_object`.  `tmp` stands for the
`uuid.uuid4()` suffix of the temporary Data file name. -/
def create_object (tmp : String) (fs : FNode) (p : List String)
    (data : String) (meta : Meta) (overwrite_existing : Bool) : Except StorageErr FNode :=
  if object_exists fs p && !overwrite_existing then .error .alreadyExists
  else if !object_exists fs p && isDir fs p && !(listdir fs p).isEmpty then
    .error .nonEmptyDirectory
  else
    match writeFile fs p ("data_" ++ tmp) data with
    | none => .error .ioFailure
    | some fs1 =>
      match writeFile fs1 p "meta" (encodeMeta meta) with
      | none => .error .ioFailure
      | some fs2 =>
        match renameIn fs2 p ("data_" ++ tmp) "data" with
        | none => .error .ioFailure
        | some fs3 => .ok fs3

/-- `FilesystemStorage.get_meta`. -/
def get_meta (fs : FNode) (p : List String) : Except StorageErr Meta :=
  if !object_exists fs p then .error .notFound
  else
    match readFile fs (p ++ ["meta"]) with
    | none => .error .ioFailure
    | some c =>
      match decodeMeta c with
      | some m => .ok m
      | none => .error .decodeError

/-- `FilesystemStorage.get_data`. -/
def get_data (fs : FNode) (p : List String) : Except StorageErr String :=
  if !object_exists fs p then .error .notFound
  else
    match readFile fs (p ++ ["data"]) with
    | none => .error .ioFailure
    | some c => .ok c

/-- `FilesystemStorage.get_detail`. -/
def get_detail (fs : FNode) (p : List String) : Except StorageErr (Meta × String) :=
  if !object_exists fs p then .error .notFound
  else do
    let m ← get_meta fs p
    let d ← get_data fs p
    pure (m, d)

/-- Python `dict.update`: keys of `m` override in place, new keys are
appended in `m`'s order. -/
def dictUpdate (prev m : Meta) : Meta :=
  (prev.map (fun e =>
    match List.lookup e.1 m with
    | some w => (e.1, w)
    | none => e)) ++ m.filter (fun e => (List.lookup e.1 prev).isNone)

/-- `FilesystemStorage.update_meta`. -/
def update_meta (fs : FNode) (p : List String) (meta : Meta) (replace : Bool) :
    Except StorageErr FNode :=
  if !object_exists fs p then .error .notFound
  else if replace then
    match writeFile fs p "meta" (encodeMeta meta) with
    | some fs2 => .ok fs2
    | none => .error .ioFailure
  else
    match get_meta fs p with
    | .error e => .error e
    | .ok prev =>
      match writeFile fs p "meta" (encodeMeta (dictUpdate prev meta)) with
      | some fs2 => .ok fs2
      | none => .error .ioFailure

/-- `FilesystemStorage.update_data`. -/
def update_data (fs : FNode) (p : List String) (data : String) : Except StorageErr FNode :=
  if !object_exists fs p then .error .notFound
  else
    match writeFile fs p "data" data with
    | some fs2 => .ok fs2
    | none => .error .ioFailure

/-- `FilesystemStorage.list_objects(path, without_tag)`: `p` is the
resolved directory, `path` the caller's URI argument (results join onto
it).  `not without_tag` in Python is true for `None` and for the empty
string. -/
def list_objects (fs : FNode) (p : List String) (path : String)
    (without_tag : Option String) : Except StorageErr (List String) :=
  match lookup fs p with
  | some (.dir es) =>
    .ok ((es.map (fun e => e.1)).filterMap (fun name =>
      if object_exists fs (p ++ [name]) &&
          (match without_tag with
           | none => true
           | some t => t = "" || !pathExists fs (p ++ [name, t])) then
        some (osJoin path name)
      else none))
  | _ => .error .invalidPath

/-- The claim's reading of `list_objects`: an object is excluded exactly
when its directory contains a regular *file* named after the tag. -/
def list_objects_claimed (fs : FNode) (p : List String) (path : String)
    (without_tag : Option String) : Except StorageErr (List String) :=
  match lookup fs p with
  | some (.dir es) =>
    .ok ((es.map (fun e => e.1)).filterMap (fun name =>
      if object_exists fs (p ++ [name]) &&
          (match without_tag with
           | none => true
           | some t => !isFile fs (p ++ [name, t])) then
        some (osJoin path name)
      else none))
  | _ => .error .invalidPath

/-- The amended reading: excluded when the directory contains an *entry*
(of any kind) named after the tag, matching `os.path.exists`. -/
def list_objects_spec (fs : FNode) (p : List String) (path : String)
    (without_tag : Option String) : Except StorageErr (List String) :=
  match lookup fs p with
  | some (.dir es) =>
    .ok ((es.map (fun e => e.1)).filterMap (fun name =>
      if object_exists fs (p ++ [name]) &&
          (without_tag.all (fun t => !pathExists fs (p ++ [name, t]))) then
        some (osJoin path name)
      else none))
  | _ => .error .invalidPath

/-- `FilesystemStorage.delete_object`. -/
def delete_object (fs : FNode) (p : List String) : Except StorageErr FNode :=
  if !object_exists fs p then .error .notFound
  else
    match removePath fs p with
    | some fs2 => .ok fs2
    | none => .error .ioFailure

/-- `FilesystemStorage.tag_object`: `open(mark_file, "w")` truncates or
creates the marker file directly (no `_write`, no existence check, no
`mkdir`); `if data:` writes nothing for `None` or the empty string, so the
file content is `data or ""`. -/
def tag_object (fs : FNode) (p : List String) (tag : String) (data : Option String) :
    Except StorageErr FNode :=
  match openW fs p tag (data.getD "") with
  | some fs2 => .ok fs2
  | none => .error .ioFailure

/-!
## Stepwise model of `_write` (for the atomicity claim)

`write` executes `_write(path, content)` for target `p/name` with the
temporary path `p/(name ++ "_" ++ tmpSuffix)`, under an injected fault:
`failOpen` makes the `open` call raise before the temporary file exists,
`failWrite h` makes `write`/`flush`/`fsync` raise after the temporary file
holds the bytes `h`.  It returns the raised error (if any) together with
the filesystem after the call, including the `except` handler's cleanup
(`os.remove` of the temporary file when `os.path.isfile` says it exists)
and the final conditional rename. -/

inductive WriteFault where
  | noFault : WriteFault
  | failOpen : WriteFault
  | failWrite : String → WriteFault

def write (fs : FNode) (p : List String) (name tmpSuffix content : String)
    (fault : WriteFault) : Option StorageErr × FNode :=
  match mkdirp fs p with
  | none => (some .ioFailure, fs)
  | some fs0 =>
    match fault with
    | .failOpen => (some .ioFailure, fs0)
    | .failWrite h =>
      match openW fs0 p (name ++ "_" ++ tmpSuffix) h with
      | none => (some .ioFailure, fs0)
      | some fs1 =>
        (some .ioFailure,
          if isFile fs1 (p ++ [name ++ "_" ++ tmpSuffix]) then
            (removeFileIn fs1 p (name ++ "_" ++ tmpSuffix)).getD fs1
          else fs1)
    | .noFault =>
      match openW fs0 p (name ++ "_" ++ tmpSuffix) content with
      | none => (some .ioFailure, fs0)
      | some fs1 =>
        if pathExists fs1 (p ++ [name ++ "_" ++ tmpSuffix]) then
          match renameIn fs1 p (name ++ "_" ++ tmpSuffix) name with
          | some fs2 => (none, fs2)
          | none => (some .ioFailure, fs1)
        else (none, fs1)


/-! ### Concrete inputs used by witnesses and counterexamples -/

/-- C2: a directory left by an interrupted create: committed `meta`, a
surviving temporary data file `data_z`, no committed `data`. -/
def fsPartial : FNode := .dir [("o", .dir [("meta", .file "{}"), ("data_z", .file "part")])]

/-- C3: an empty storage root. -/
def fsEmptyRoot : FNode := .dir []

/-- C4: a root holding one valid object at `o` and an unrelated non-object
directory at `b`. -/
def fsWithObject : FNode :=
  .dir [("o", .dir [("data", .file "old"), ("meta", .file "m0")]),
    ("b", .dir [("junk", .file "j")])]

/-- C5: an object directory holding only a `data` file. -/
def fsDataOnly : FNode := .dir [("o", .dir [("data", .file "d")])]

/-- C6: a valid object whose stored meta is the encoding of `{"a": 1}`. -/
def fsMetaA1 : FNode :=
  .dir [("o", .dir [("data", .file "d"), ("meta", .file (encodeMeta [("a", MValue.n 1)]))])]

/-- C8: a valid data file that an interrupted `_write` must leave intact. -/
def fsWriteTarget : FNode := .dir [("o", .dir [("data", .file "old")])]

/-- C9: two valid objects `x` and `y`; `x`'s directory contains a
subdirectory (not a regular file) named `t`. -/
def fsTwoObjects : FNode :=
  .dir [("x", .dir [("data", .file "d"), ("meta", .file "m"), ("t", .dir [])]),
    ("y", .dir [("data", .file "d"), ("meta", .file "m")])]

/-- C10: a directory at `o` that is not a valid object (no `meta`). -/
def fsNoMeta : FNode := .dir [("o", .dir [("data", .file "d")])]

/-! ## Lemmas -/


theorem lookup_cons_pair (a : String) (k : String) (v : FNode) (es) :
    List.lookup a ((k, v) :: es) = if a = k then some v else List.lookup a es := by
  simp [List.lookup]
  split
  · next h => simp [beq_iff_eq] at h; simp [h]
  · next h => simp [beq_iff_eq] at h; simp [h]

theorem lookup_setEntry_self (x : String) (n : FNode) (es : List (String × FNode)) :
    List.lookup x (setEntry x n es) = some n := by
  induction es with
  | nil => simp [setEntry, lookup_cons_pair]
  | cons e tl ih =>
    by_cases h : e.1 = x
    · simp [setEntry, h, lookup_cons_pair]
    · cases e with
      | mk k v =>
        simp only [setEntry]
        simp at h
        simp [h, lookup_cons_pair, ih, Ne.symm h]

theorem lookup_setEntry_ne (x y : String) (n : FNode) (es : List (String × FNode))
    (h : y ≠ x) : List.lookup y (setEntry x n es) = List.lookup y es := by
  induction es with
  | nil => simp [setEntry, lookup_cons_pair, h]
  | cons e tl ih =>
    cases e with
    | mk k v =>
      by_cases h2 : k = x
      · simp [setEntry, h2, lookup_cons_pair, h]
      · simp [setEntry, h2, lookup_cons_pair, ih]

theorem lookup_removeEntry_self (x : String) (es : List (String × FNode)) :
    List.lookup x (removeEntry x es) = none := by
  induction es with
  | nil => simp [removeEntry]
  | cons e tl ih =>
    cases e with
    | mk k v =>
      by_cases h : k = x
      · simpa [removeEntry, h] using ih
      · simpa [removeEntry, h, lookup_cons_pair, Ne.symm h] using ih

theorem lookup_removeEntry_ne (x y : String) (es : List (String × FNode)) (h : y ≠ x) :
    List.lookup y (removeEntry x es) = List.lookup y es := by
  induction es with
  | nil => simp [removeEntry]
  | cons e tl ih =>
    cases e with
    | mk k v =>
      by_cases h2 : k = x
      · subst h2
        simp only [removeEntry, List.filter, ne_eq, decide_not] at ih ⊢
        simp [lookup_cons_pair, h, ih]
      · simp only [removeEntry, List.filter, ne_eq, decide_not] at ih ⊢
        simp [h2, lookup_cons_pair, ih]


theorem lookup_dir_single (es : List (String × FNode)) (x : String) :
    lookup (.dir es) [x] = List.lookup x es := by
  simp only [lookup]
  cases List.lookup x es <;> simp [lookup]

theorem lookup_append (fs : FNode) (p q : List String) :
    lookup fs (p ++ q) = (lookup fs p).bind (fun n => lookup n q) := by
  induction p generalizing fs with
  | nil => simp [lookup]
  | cons s rest ih =>
    cases fs with
    | file c => simp [lookup]
    | dir es =>
      simp only [List.cons_append, lookup]
      cases List.lookup s es with
      | none => simp
      | some n => exact ih n

theorem setEntry_self_of_lookup (x : String) (n : FNode) (es : List (String × FNode))
    (h : List.lookup x es = some n) : setEntry x n es = es := by
  induction es with
  | nil => simp at h
  | cons e tl ih =>
    cases e with
    | mk k v =>
      rw [lookup_cons_pair] at h
      by_cases h2 : x = k
      · simp only [h2, if_pos rfl] at h
        cases h
        simp [setEntry, h2]
      · simp only [if_neg h2] at h
        have h3 : ¬(k = x) := fun hh => h2 hh.symm
        simp [setEntry, h3, ih h]

theorem withDir_spec (fs : FNode) (p : List String)
    (f : List (String × FNode) → Option (List (String × FNode)))
    (es es2 : List (String × FNode))
    (hl : lookup fs p = some (.dir es)) (hf : f es = some es2) :
    ∃ fs2, withDir fs p f = some fs2 ∧ lookup fs2 p = some (.dir es2) := by
  induction p generalizing fs with
  | nil =>
    simp [lookup] at hl
    subst hl
    exact ⟨.dir es2, by simp [withDir, hf], by simp [lookup]⟩
  | cons s rest ih =>
    cases fs with
    | file c => simp [lookup] at hl
    | dir es0 =>
      simp only [lookup] at hl
      cases hlk : List.lookup s es0 with
      | none => simp [hlk] at hl
      | some n =>
        rw [hlk] at hl
        obtain ⟨fs2, hw, hl2⟩ := ih n hl
        refine ⟨.dir (setEntry s fs2 es0), ?_, ?_⟩
        · simp [withDir, hlk, hw]
        · simp [lookup, lookup_setEntry_self, hl2]

theorem mkdirp_of_isDir (fs : FNode) (p : List String) (es : List (String × FNode))
    (h : lookup fs p = some (.dir es)) : mkdirp fs p = some fs := by
  induction p generalizing fs with
  | nil =>
    simp [lookup] at h
    subst h
    simp [mkdirp]
  | cons s rest ih =>
    cases fs with
    | file c => simp [lookup] at h
    | dir es0 =>
      simp only [lookup] at h
      cases hlk : List.lookup s es0 with
      | none => simp [hlk] at h
      | some n =>
        rw [hlk] at h
        simp [mkdirp, hlk, ih n h, setEntry_self_of_lookup s n es0 hlk]

theorem mkdirp_some_of_noFile (fs : FNode) (p : List String)
    (h : noFileOnPath fs p = true) : ∃ fs0, mkdirp fs p = some fs0 := by
  induction p generalizing fs with
  | nil =>
    cases fs with
    | file c => simp [noFileOnPath] at h
    | dir es => exact ⟨.dir es, by simp [mkdirp]⟩
  | cons s rest ih =>
    cases fs with
    | file c => simp [noFileOnPath] at h
    | dir es =>
      simp only [noFileOnPath] at h
      cases hlk : List.lookup s es with
      | some n =>
        rw [hlk] at h
        obtain ⟨n2, hn2⟩ := ih n h
        exact ⟨.dir (setEntry s n2 es), by simp [mkdirp, hlk, hn2]⟩
      | none =>
        have h2 : noFileOnPath (.dir []) rest = true := by
          cases rest <;> simp [noFileOnPath]
        obtain ⟨n2, hn2⟩ := ih (.dir []) h2
        exact ⟨.dir (setEntry s n2 es), by simp [mkdirp, hlk, hn2]⟩

theorem mkdirp_lookup_dir (fs : FNode) (p : List String) (fs0 : FNode)
    (h : mkdirp fs p = some fs0) : ∃ es0, lookup fs0 p = some (.dir es0) := by
  induction p generalizing fs fs0 with
  | nil =>
    cases fs with
    | file c => simp [mkdirp] at h
    | dir es =>
      simp [mkdirp] at h
      subst h
      exact ⟨es, by simp [lookup]⟩
  | cons s rest ih =>
    cases fs with
    | file c => simp [mkdirp] at h
    | dir es =>
      simp only [mkdirp] at h
      cases hlk : List.lookup s es with
      | some n =>
        simp only [hlk] at h
        cases hm : mkdirp n rest with
        | none => simp [hm] at h
        | some n2 =>
          simp only [hm, Option.map_some'] at h
          obtain ⟨es0, hes0⟩ := ih n n2 hm
          cases h
          exact ⟨es0, by simp [lookup, lookup_setEntry_self, hes0]⟩
      | none =>
        simp only [hlk] at h
        cases hm : mkdirp (.dir []) rest with
        | none => simp [hm] at h
        | some n2 =>
          simp only [hm, Option.map_some'] at h
          obtain ⟨es0, hes0⟩ := ih (.dir []) n2 hm
          cases h
          exact ⟨es0, by simp [lookup, lookup_setEntry_self, hes0]⟩

theorem mkdirp_lookup_ext (fs : FNode) (p : List String) (fs0 : FNode)
    (h : mkdirp fs p = some fs0) (x : String) (q : List String) :
    lookup fs0 (p ++ x :: q) = lookup fs (p ++ x :: q) := by
  induction p generalizing fs fs0 with
  | nil =>
    cases fs with
    | file c => simp [mkdirp] at h
    | dir es =>
      simp [mkdirp] at h
      subst h
      rfl
  | cons s rest ih =>
    cases fs with
    | file c => simp [mkdirp] at h
    | dir es =>
      simp only [mkdirp] at h
      cases hlk : List.lookup s es with
      | some n =>
        simp only [hlk] at h
        cases hm : mkdirp n rest with
        | none => simp [hm] at h
        | some n2 =>
          simp only [hm, Option.map_some'] at h
          cases h
          simp only [List.cons_append, lookup, lookup_setEntry_self, hlk]
          exact ih n n2 hm
      | none =>
        simp only [hlk] at h
        cases hm : mkdirp (.dir []) rest with
        | none => simp [hm] at h
        | some n2 =>
          simp only [hm, Option.map_some'] at h
          cases h
          simp only [List.cons_append, lookup, lookup_setEntry_self, hlk]
          have hih := ih (.dir []) n2 hm
          cases rest with
          | nil => simpa [lookup] using hih
          | cons a b => simpa [lookup] using hih

theorem string_mk_data (s : String) : String.mk s.data = s := rfl

theorem takeWhile_all_append (p : Char → Bool) (xs ys : List Char)
    (h1 : ∀ x ∈ xs, p x = true) (h2 : ∀ c, ys.head? = some c → p c = false) :
    (xs ++ ys).takeWhile p = xs ∧ (xs ++ ys).dropWhile p = ys := by
  induction xs with
  | nil =>
    cases ys with
    | nil => simp
    | cons c tl =>
      have hc := h2 c rfl
      simp [List.takeWhile, List.dropWhile, hc]
  | cons x tl ih =>
    have hx := h1 x (by simp)
    have ih2 := ih (fun a ha => h1 a (by simp [ha]))
    simp [List.takeWhile, List.dropWhile, hx, ih2.1, ih2.2]

theorem parseQStr_rt (q : Char) (s : String) (rest : List Char)
    (h : ∀ c ∈ s.data, c ≠ q) :
    parseQStr q (q :: (s.data ++ q :: rest)) = some (s, rest) := by
  have h1 : ∀ c ∈ s.data, (fun d => decide (d ≠ q)) c = true := by
    intro c hc
    simp [h c hc]
  have h2 : ∀ c, (q :: rest).head? = some c → (fun d => decide (d ≠ q)) c = false := by
    intro c hc
    simp at hc
    subst hc
    simp
  have htd := takeWhile_all_append (fun d => decide (d ≠ q)) s.data (q :: rest) h1 h2
  simp only [parseQStr, if_pos rfl, ne_eq, htd.1, htd.2, string_mk_data]
  simp

theorem digitChar_isDigit (d : Nat) : (digitChar d).isDigit = true := by
  unfold digitChar
  have h : d % 10 < 10 := Nat.mod_lt _ (by norm_num)
  generalize hr : d % 10 = r at h ⊢
  interval_cases r <;> decide

theorem digitVal_digitChar (d : Nat) : digitVal (digitChar d) = d % 10 := by
  unfold digitChar digitVal
  have h : d % 10 < 10 := Nat.mod_lt _ (by norm_num)
  generalize hr : d % 10 = r at h ⊢
  interval_cases r <;> decide

theorem isDigit_ne_dquote (c : Char) (h : c.isDigit = true) : c ≠ dquote := by
  intro he
  subst he
  exact absurd h (by decide)

theorem isDigit_ne_squote (c : Char) (h : c.isDigit = true) : c ≠ squote := by
  intro he
  subst he
  exact absurd h (by decide)

theorem natCharsAux_digits (fuel : Nat) :
    ∀ k, k < fuel → ∀ c ∈ natCharsAux fuel k, c.isDigit = true := by
  induction fuel with
  | zero => intro k h; omega
  | succ f ih =>
    intro k h c hc
    by_cases h10 : k < 10
    · simp [natCharsAux, h10] at hc
      subst hc
      exact digitChar_isDigit k
    · simp only [natCharsAux, if_neg h10] at hc
      rcases List.mem_append.mp hc with hc1 | hc2
      · have hd : k / 10 < k := Nat.div_lt_self (by omega) (by norm_num)
        exact ih (k / 10) (by omega) c hc1
      · simp at hc2
        subst hc2
        exact digitChar_isDigit _

theorem natChars_digits (k : Nat) : ∀ c ∈ natChars k, c.isDigit = true :=
  natCharsAux_digits (k + 1) k (Nat.lt_succ_self k)

theorem foldl_natCharsAux (fuel : Nat) :
    ∀ k, k < fuel → ∀ a : Nat,
      (natCharsAux fuel k).foldl (fun acc c => 10 * acc + digitVal c) a =
        a * 10 ^ (natCharsAux fuel k).length + k := by
  induction fuel with
  | zero => intro k h; omega
  | succ f ih =>
    intro k h a
    by_cases h10 : k < 10
    · simp [natCharsAux, h10, digitVal_digitChar]
      omega
    · have hd : k / 10 < k := Nat.div_lt_self (by omega) (by norm_num)
      have hf : k / 10 < f := by omega
      simp only [natCharsAux, if_neg h10, List.foldl_append, List.length_append]
      rw [ih (k / 10) hf a]
      simp only [List.foldl, digitVal_digitChar]
      rw [pow_add]
      generalize (10 : Nat) ^ (natCharsAux f (k / 10)).length = B
      simp only [List.length_cons, List.length_nil, pow_one]
      ring_nf
      omega

theorem charsToNat_natChars (k : Nat) : charsToNat (natChars k) = k := by
  have h := foldl_natCharsAux (k + 1) k (Nat.lt_succ_self k) 0
  simpa [charsToNat, natChars] using h

theorem natChars_ne_nil (k : Nat) : natChars k ≠ [] := by
  unfold natChars natCharsAux
  by_cases h10 : k < 10 <;> simp [h10]

theorem parseNat_rt (k : Nat) (rest : List Char)
    (hrest : ∀ c, rest.head? = some c → c.isDigit = false) :
    parseNatChars (natChars k ++ rest) = some (k, rest) := by
  have htd := takeWhile_all_append Char.isDigit (natChars k) rest (natChars_digits k) hrest
  have hne := natChars_ne_nil k
  have hie : (natChars k).isEmpty = false := by
    cases hn : natChars k with
    | nil => exact absurd hn hne
    | cons a l => rfl
  simp only [parseNatChars, htd.1, htd.2, hie, Bool.false_eq_true, if_false,
    charsToNat_natChars]

theorem plainStr_ne_quote (s : String) (hs : plainStr s = true) (q : Char)
    (hq : q = dquote ∨ q = squote) : ∀ c ∈ s.data, c ≠ q := by
  intro c hc
  have := (List.all_eq_true.mp hs) c hc
  simp [plainChar, Bool.and_eq_true, decide_eq_true_eq] at this
  rcases hq with rfl | rfl <;> tauto

theorem natChars_head_ne (k : Nat) (q : Char) (hq : q = dquote ∨ q = squote) :
    ∀ c l, natChars k = c :: l → ¬(c = q) := by
  intro c l hc he
  have hd : c.isDigit = true := natChars_digits k c (by simp [hc])
  subst he
  rcases hq with rfl | rfl
  · exact absurd hd (by decide)
  · exact absurd hd (by decide)

theorem parseVal_rt (q : Char) (v : MValue) (rest : List Char)
    (hq : q = dquote ∨ q = squote) (hv : wfVal v = true)
    (hrest : ∀ c, rest.head? = some c → c.isDigit = false) :
    parseVal q (dumpVal q v ++ rest) = some (v, rest) := by
  cases v with
  | s str =>
    simp only [dumpVal]
    have hpq := plainStr_ne_quote str (by simpa [wfVal] using hv) q hq
    have := parseQStr_rt q str rest hpq
    simp only [List.cons_append, List.append_assoc, List.singleton_append] at this ⊢
    simp [parseVal, this]
  | n k =>
    simp only [dumpVal]
    cases hn : natChars k with
    | nil => exact absurd hn (natChars_ne_nil k)
    | cons c l =>
      have hcq : ¬(c = q) := natChars_head_ne k q hq c l hn
      have hp := parseNat_rt k rest hrest
      rw [hn] at hp
      simp only [List.cons_append] at hp
      simp only [parseVal, List.cons_append, hcq, if_false]
      rw [hp]
      rfl

theorem expectChars_rt (lit rest : List Char) : expectChars lit (lit ++ rest) = some rest := by
  induction lit with
  | nil => simp [expectChars]
  | cons c l ih => simp [expectChars, ih]

theorem dumpEntries_length (q : Char) (m : Meta) : m.length ≤ (dumpEntries q m).length := by
  induction m with
  | nil => simp [dumpEntries]
  | cons e tl ih =>
    cases tl with
    | nil => simp [dumpEntries, dumpEntry]
    | cons e2 tl2 =>
      simp only [dumpEntries, dumpEntry, List.length_append, List.length_cons] at ih ⊢
      omega

theorem parseEntries_rt (q : Char) (hq : q = dquote ∨ q = squote) (m : Meta) :
    ∀ fuel rest, wfMeta m = true → m ≠ [] → m.length ≤ fuel →
      parseEntries q fuel (dumpEntries q m ++ rbrace :: rest) = some (m, rest) := by
  induction m with
  | nil => intro fuel rest _ hne; exact absurd rfl hne
  | cons e tl ih =>
    intro fuel rest hwf _ hlen
    obtain ⟨k, v⟩ := e
    have hwf1 : plainStr k = true ∧ wfVal v = true := by
      have := (List.all_eq_true.mp hwf) (k, v) (by simp)
      simpa [Bool.and_eq_true] using this
    have hwf2 : wfMeta tl = true := by
      simp only [wfMeta, List.all_cons, Bool.and_eq_true] at hwf
      exact hwf.2
    cases fuel with
    | zero => simp at hlen
    | succ f =>
      have hkq : ∀ c ∈ k.data, c ≠ q := plainStr_ne_quote k hwf1.1 q hq
      cases tl with
      | nil =>
        -- single entry: dumpEntries = dumpEntry q (k, v)
        have hqs := parseQStr_rt q k (colonC :: spaceC :: (dumpVal q v ++ rbrace :: rest)) hkq
        have hval := parseVal_rt q v (rbrace :: rest) hq hwf1.2
          (by intro c hc; simp at hc; subst hc; decide)
        simp only [dumpEntries, dumpEntry, List.cons_append, List.append_assoc,
          List.singleton_append, List.nil_append]
        simp only [parseEntries, hqs]
        rw [show expectChars [colonC, spaceC]
            (colonC :: spaceC :: (dumpVal q v ++ rbrace :: rest)) =
            some (dumpVal q v ++ rbrace :: rest) from expectChars_rt [colonC, spaceC] _]
        simp only [hval]
        simp
      | cons e2 tl2 =>
        have hqs := parseQStr_rt q k
          (colonC :: spaceC :: (dumpVal q v ++ commaC :: spaceC :: (dumpEntries q (e2 :: tl2) ++ rbrace :: rest))) hkq
        have hval := parseVal_rt q v
          (commaC :: spaceC :: (dumpEntries q (e2 :: tl2) ++ rbrace :: rest)) hq hwf1.2
          (by intro c hc; simp at hc; subst hc; decide)
        have hrec := ih f rest hwf2 (by simp) (by simpa using Nat.lt_succ_iff.mp hlen)
        simp only [dumpEntries, dumpEntry, List.cons_append, List.append_assoc,
          List.singleton_append, List.nil_append]
        simp only [parseEntries, hqs]
        rw [show expectChars [colonC, spaceC]
            (colonC :: spaceC :: (dumpVal q v ++ commaC :: spaceC :: (dumpEntries q (e2 :: tl2) ++ rbrace :: rest))) =
            some (dumpVal q v ++ commaC :: spaceC :: (dumpEntries q (e2 :: tl2) ++ rbrace :: rest)) from
            expectChars_rt [colonC, spaceC] _]
        have hne2 : ¬(commaC = rbrace) := by decide
        simp [hval, hne2, hrec]

theorem dumpEntries_head_q (q : Char) (e : String × MValue) (tl : Meta) :
    ∃ l, dumpEntries q (e :: tl) = q :: l := by
  cases tl with
  | nil => exact ⟨_, rfl⟩
  | cons e2 tl2 => exact ⟨_, rfl⟩

theorem parseDict_rt (q : Char) (hq : q = dquote ∨ q = squote) (m : Meta)
    (hwf : wfMeta m = true) (rest : List Char) :
    parseDict q (dumpDict q m ++ rest) = some (m, rest) := by
  cases m with
  | nil =>
    simp [dumpDict, dumpEntries, parseDict]
  | cons e tl =>
    obtain ⟨l, hl⟩ := dumpEntries_head_q q e tl
    have hqr : ¬(q = rbrace) := by rcases hq with rfl | rfl <;> decide
    have hrec := parseEntries_rt q hq (e :: tl)
      ((dumpEntries q (e :: tl) ++ rbrace :: rest).length) rest hwf (by simp)
      (by
        have h2 := dumpEntries_length q (e :: tl)
        simp only [List.length_append, List.length_cons] at h2 ⊢
        omega)
    simp only [dumpDict, List.cons_append, List.append_assoc, List.singleton_append]
    rw [hl] at hrec ⊢
    simp only [List.cons_append] at hrec ⊢
    simp only [parseDict, if_pos rfl, hqr, if_false]
    exact hrec

theorem parseDictDoc_rt (q : Char) (hq : q = dquote ∨ q = squote) (m : Meta)
    (hwf : wfMeta m = true) : parseDictDoc q (String.mk (dumpDict q m)) = some m := by
  have h := parseDict_rt q hq m hwf []
  simp only [List.append_nil] at h
  simp [parseDictDoc, h]

theorem decodeMeta_encodeMeta (m : Meta) (hwf : wfMeta m = true) :
    decodeMeta (encodeMeta m) = some m := by
  have hsw : startsWithQuote (encodeMeta m) = false := by
    simp [encodeMeta, jsonDumps, startsWithQuote, dumpDict]
    decide
  simp only [decodeMeta, hsw, Bool.false_eq_true, if_false]
  exact parseDictDoc_rt dquote (Or.inl rfl) m hwf

theorem dumpVal_squote_ne_dquote (v : MValue) (hv : wfVal v = true) :
    ∀ c ∈ dumpVal squote v, c ≠ dquote := by
  cases v with
  | s str =>
    intro c hc
    rw [dumpVal] at hc
    rcases List.mem_cons.mp hc with rfl | hc2
    · decide
    rcases List.mem_append.mp hc2 with hc3 | hc3
    · exact plainStr_ne_quote str (by simpa [wfVal] using hv) dquote (Or.inl rfl) c hc3
    · have := List.mem_singleton.mp hc3
      subst this
      decide
  | n k =>
    intro c hc
    exact isDigit_ne_dquote c (natChars_digits k c hc)

theorem dumpEntry_squote_ne_dquote (e : String × MValue)
    (h1 : plainStr e.1 = true) (h2 : wfVal e.2 = true) :
    ∀ c ∈ dumpEntry squote e, c ≠ dquote := by
  intro c hc
  rw [dumpEntry] at hc
  rcases List.mem_cons.mp hc with rfl | hc2
  · decide
  rcases List.mem_append.mp hc2 with hc3 | hc3
  · rcases List.mem_append.mp hc3 with hc4 | hc4
    · exact plainStr_ne_quote e.1 h1 dquote (Or.inl rfl) c hc4
    · have := List.mem_singleton.mp hc4
      subst this
      decide
  · rcases List.mem_cons.mp hc3 with rfl | hc4
    · decide
    rcases List.mem_cons.mp hc4 with rfl | hc5
    · decide
    · exact dumpVal_squote_ne_dquote e.2 h2 c hc5

theorem dumpEntries_squote_ne_dquote (m : Meta) (hwf : wfMeta m = true) :
    ∀ c ∈ dumpEntries squote m, c ≠ dquote := by
  induction m with
  | nil => simp [dumpEntries]
  | cons e tl ih =>
    have hwf1 : plainStr e.1 = true ∧ wfVal e.2 = true := by
      have := (List.all_eq_true.mp hwf) e (by simp)
      simpa [Bool.and_eq_true] using this
    have hwf2 : wfMeta tl = true := by
      simp only [wfMeta, List.all_cons, Bool.and_eq_true] at hwf
      exact hwf.2
    have hentry := dumpEntry_squote_ne_dquote e hwf1.1 hwf1.2
    cases tl with
    | nil => simpa [dumpEntries] using hentry
    | cons e2 tl2 =>
      intro c hc
      have heq : dumpEntries squote (e :: e2 :: tl2) =
          dumpEntry squote e ++ commaC :: spaceC :: dumpEntries squote (e2 :: tl2) := rfl
      rw [heq] at hc
      rcases List.mem_append.mp hc with hc2 | hc2
      · exact hentry c hc2
      rcases List.mem_cons.mp hc2 with rfl | hc3
      · decide
      rcases List.mem_cons.mp hc3 with rfl | hc4
      · decide
      · exact ih hwf2 c hc4

theorem pyRepr_ne_dquote (m : Meta) (hwf : wfMeta m = true) :
    ∀ c ∈ (pyRepr m).data, c ≠ dquote := by
  intro c hc
  have hc2 : c ∈ dumpDict squote m := hc
  rw [dumpDict] at hc2
  rcases List.mem_cons.mp hc2 with rfl | hc3
  · decide
  rcases List.mem_append.mp hc3 with hc4 | hc4
  · exact dumpEntries_squote_ne_dquote m hwf c hc4
  · have := List.mem_singleton.mp hc4
    subst this
    decide

theorem decodeMeta_legacy (m : Meta) (hwf : wfMeta m = true) :
    decodeMeta (legacyEncodeMeta m) = some m := by
  have hsw : startsWithQuote (legacyEncodeMeta m) = true := by
    simp [legacyEncodeMeta, startsWithQuote]
  have hqs := parseQStr_rt dquote (pyRepr m) [] (pyRepr_ne_dquote m hwf)
  simp only [decodeMeta, hsw, if_true]
  have hls : jsonLoadsStr (legacyEncodeMeta m) = some (pyRepr m) := by
    have hqs2 : parseQStr dquote (legacyEncodeMeta m).data = some (pyRepr m, []) := by
      simpa [legacyEncodeMeta] using hqs
    simp [jsonLoadsStr, hqs2]
  rw [hls]
  have hrt := parseDictDoc_rt squote (Or.inr rfl) m hwf
  simpa [literalEvalDict, pyRepr] using hrt

theorem lookup_child (fs : FNode) (p : List String) (x : String)
    (es : List (String × FNode)) (h : lookup fs p = some (.dir es)) :
    lookup fs (p ++ [x]) = List.lookup x es := by
  rw [lookup_append, h]
  simpa using lookup_dir_single es x

theorem lookup_none_child (fs : FNode) (p q : List String) (h : lookup fs p = none) :
    lookup fs (p ++ q) = none := by
  rw [lookup_append, h]
  rfl

theorem readFile_child (fs : FNode) (p : List String) (x : String)
    (es : List (String × FNode)) (c : String) (h : lookup fs p = some (.dir es))
    (h2 : List.lookup x es = some (.file c)) : readFile fs (p ++ [x]) = some c := by
  simp [readFile, lookup_child fs p x es h, h2]

theorem isFile_child (fs : FNode) (p : List String) (x : String)
    (es : List (String × FNode)) (c : String) (h : lookup fs p = some (.dir es))
    (h2 : List.lookup x es = some (.file c)) : isFile fs (p ++ [x]) = true := by
  simp [isFile, lookup_child fs p x es h, h2]

theorem isDir_of_lookup (fs : FNode) (p : List String) (es : List (String × FNode))
    (h : lookup fs p = some (.dir es)) : isDir fs p = true := by
  simp [isDir, h]

theorem isDir_false_of_none (fs : FNode) (p : List String) (h : lookup fs p = none) :
    isDir fs p = false := by
  simp [isDir, h]

theorem isFile_eq_true (fs : FNode) (p : List String) (h : isFile fs p = true) :
    ∃ c, lookup fs p = some (.file c) := by
  simp only [isFile] at h
  cases hl : lookup fs p with
  | none => rw [hl] at h; simp at h
  | some n =>
    cases n with
    | file c => exact ⟨c, rfl⟩
    | dir es => rw [hl] at h; simp at h

theorem pathExists_false_lookup (fs : FNode) (p : List String)
    (h : pathExists fs p = false) : lookup fs p = none := by
  simp only [pathExists] at h
  cases hl : lookup fs p with
  | none => rfl
  | some n => rw [hl] at h; simp at h

theorem noFileOnPath_lookup (fs : FNode) (p : List String)
    (h : noFileOnPath fs p = true) :
    lookup fs p = none ∨ ∃ es, lookup fs p = some (.dir es) := by
  induction p generalizing fs with
  | nil =>
    cases fs with
    | file c => simp [noFileOnPath] at h
    | dir es => exact Or.inr ⟨es, rfl⟩
  | cons s rest ih =>
    cases fs with
    | file c => simp [noFileOnPath] at h
    | dir es =>
      simp only [noFileOnPath] at h
      cases hlk : List.lookup s es with
      | none => exact Or.inl (by simp [lookup, hlk])
      | some n =>
        rw [hlk] at h
        rcases ih n h with h2 | ⟨es2, h2⟩
        · exact Or.inl (by simp [lookup, hlk, h2])
        · exact Or.inr ⟨es2, by simp [lookup, hlk, h2]⟩

theorem openW_spec (fs : FNode) (p : List String) (es : List (String × FNode))
    (name c : String) (h : lookup fs p = some (.dir es))
    (hnd : ∀ es2, List.lookup name es ≠ some (.dir es2)) :
    ∃ fs2, openW fs p name c = some fs2 ∧
      lookup fs2 p = some (.dir (setEntry name (.file c) es)) := by
  apply withDir_spec fs p _ es _ h
  cases hlk : List.lookup name es with
  | none => rfl
  | some n =>
    cases n with
    | file c2 => rfl
    | dir es2 => exact absurd hlk (hnd es2)

theorem renameIn_spec (fs : FNode) (p : List String) (es : List (String × FNode))
    (src dst c : String) (h : lookup fs p = some (.dir es))
    (hsrc : List.lookup src es = some (.file c))
    (hnd : ∀ es2, List.lookup dst es ≠ some (.dir es2)) :
    ∃ fs2, renameIn fs p src dst = some fs2 ∧
      lookup fs2 p = some (.dir (setEntry dst (.file c) (removeEntry src es))) := by
  apply withDir_spec fs p _ es _ h
  rw [hsrc]
  cases hlk : List.lookup dst es with
  | none => rfl
  | some n =>
    cases n with
    | file c2 => rfl
    | dir es2 => exact absurd hlk (hnd es2)

theorem removeFileIn_spec (fs : FNode) (p : List String) (es : List (String × FNode))
    (name c : String) (h : lookup fs p = some (.dir es))
    (hsrc : List.lookup name es = some (.file c)) :
    ∃ fs2, removeFileIn fs p name = some fs2 ∧
      lookup fs2 p = some (.dir (removeEntry name es)) := by
  apply withDir_spec fs p _ es _ h
  rw [hsrc]

theorem tmpName_ne_meta (tmp : String) : ("data_" ++ tmp) ≠ "meta" := by
  intro h
  have h2 := congrArg String.length h
  simp only [String.length_append] at h2
  have h3 : ("data_" : String).length = 5 := rfl
  have h4 : ("meta" : String).length = 4 := rfl
  omega

theorem tmpName_ne_data (tmp : String) : ("data_" ++ tmp) ≠ "data" := by
  intro h
  have h2 := congrArg String.length h
  simp only [String.length_append] at h2
  have h3 : ("data_" : String).length = 5 := rfl
  have h4 : ("data" : String).length = 4 := rfl
  omega

theorem data_ne_meta : ("data" : String) ≠ "meta" := by decide

theorem create_object_ok (fs : FNode) (p : List String) (tmp d : String) (m : Meta)
    (over : Bool)
    (Hnf : noFileOnPath fs p = true)
    (Hg1 : object_exists fs p = true → over = true)
    (Hg2 : object_exists fs p = true ∨ pathExists fs p = false ∨ listdir fs p = [])
    (Htmp : pathExists fs (p ++ ["data_" ++ tmp]) = false) :
    ∃ fs3, create_object tmp fs p d m over = .ok fs3 ∧
      readFile fs3 (p ++ ["data"]) = some d ∧
      readFile fs3 (p ++ ["meta"]) = some (encodeMeta m) ∧
      object_exists fs3 p = true := by
  -- the data/meta children of `fs` are absent or regular files in every allowed case
  have hch : ∀ x, x = "data" ∨ x = "meta" →
      lookup fs (p ++ [x]) = none ∨ ∃ c, lookup fs (p ++ [x]) = some (.file c) := by
    intro x hx
    rcases Hg2 with hob | hpe | hld
    · simp only [object_exists, Bool.and_eq_true] at hob
      rcases hx with rfl | rfl
      · exact Or.inr (isFile_eq_true fs _ hob.1.2)
      · exact Or.inr (isFile_eq_true fs _ hob.2)
    · exact Or.inl (lookup_none_child fs p [x] (pathExists_false_lookup fs p hpe))
    · rcases noFileOnPath_lookup fs p Hnf with hl | ⟨es, hl⟩
      · exact Or.inl (lookup_none_child fs p [x] hl)
      · have hes : es = [] := by
          simp only [listdir, hl] at hld
          exact List.map_eq_nil_iff.mp hld
        subst hes
        exact Or.inl (by simp [lookup_child fs p x [] hl, List.lookup])
  have hguard1 : (object_exists fs p && !over) = false := by
    cases hob : object_exists fs p
    · simp
    · simp [Hg1 hob]
  have hguard2 : (!object_exists fs p && isDir fs p && !(listdir fs p).isEmpty) = false := by
    rcases Hg2 with hob | hpe | hld
    · simp [hob]
    · simp [isDir_false_of_none fs p (pathExists_false_lookup fs p hpe)]
    · simp [hld]
  -- step 1: _write of the temporary data file
  obtain ⟨fs0, hmk⟩ := mkdirp_some_of_noFile fs p Hnf
  obtain ⟨es0, hes0⟩ := mkdirp_lookup_dir fs p fs0 hmk
  have hx0 : ∀ x, List.lookup x es0 = lookup fs (p ++ [x]) := by
    intro x
    have h1 := mkdirp_lookup_ext fs p fs0 hmk x []
    rw [lookup_child fs0 p x es0 hes0] at h1
    exact h1
  have htmpn : List.lookup ("data_" ++ tmp) es0 = none := by
    rw [hx0]
    exact pathExists_false_lookup fs _ Htmp
  obtain ⟨fs1, hw1, hes1⟩ := openW_spec fs0 p es0 ("data_" ++ tmp) d hes0
    (by intro es2 hcon; rw [htmpn] at hcon; cases hcon)
  have hwf1 : writeFile fs p ("data_" ++ tmp) d = some fs1 := by
    simp [writeFile, hmk, hw1]
  -- entries after step 1
  have hmeta1 : List.lookup "meta" (setEntry ("data_" ++ tmp) (.file d) es0) =
      lookup fs (p ++ ["meta"]) := by
    rw [lookup_setEntry_ne _ _ _ _ (fun h => tmpName_ne_meta tmp h.symm), hx0]
  have hdata1 : List.lookup "data" (setEntry ("data_" ++ tmp) (.file d) es0) =
      lookup fs (p ++ ["data"]) := by
    rw [lookup_setEntry_ne _ _ _ _ (fun h => tmpName_ne_data tmp h.symm), hx0]
  -- step 2: _write of the meta file
  have hmk1 : mkdirp fs1 p = some fs1 := mkdirp_of_isDir fs1 p _ hes1
  obtain ⟨fs2, hw2, hes2⟩ := openW_spec fs1 p _ "meta" (encodeMeta m) hes1
    (by
      intro es2 hcon
      rw [hmeta1] at hcon
      rcases hch "meta" (Or.inr rfl) with h | ⟨c, h⟩ <;> rw [h] at hcon <;> cases hcon)
  have hwf2 : writeFile fs1 p "meta" (encodeMeta m) = some fs2 := by
    simp [writeFile, hmk1, hw2]
  -- step 3: the final rename of the temporary data file onto `data`
  have hsrc2 : List.lookup ("data_" ++ tmp)
      (setEntry "meta" (.file (encodeMeta m)) (setEntry ("data_" ++ tmp) (.file d) es0)) =
      some (.file d) := by
    rw [lookup_setEntry_ne _ _ _ _ (tmpName_ne_meta tmp), lookup_setEntry_self]
  have hdata2 : List.lookup "data"
      (setEntry "meta" (.file (encodeMeta m)) (setEntry ("data_" ++ tmp) (.file d) es0)) =
      lookup fs (p ++ ["data"]) := by
    rw [lookup_setEntry_ne _ _ _ _ data_ne_meta, hdata1]
  obtain ⟨fs3, hw3, hes3⟩ := renameIn_spec fs2 p _ ("data_" ++ tmp) "data" d hes2 hsrc2
    (by
      intro es2 hcon
      rw [hdata2] at hcon
      rcases hch "data" (Or.inl rfl) with h | ⟨c, h⟩ <;> rw [h] at hcon <;> cases hcon)
  -- read back the final state
  have hfdata : List.lookup "data"
      (setEntry "data" (.file d) (removeEntry ("data_" ++ tmp)
        (setEntry "meta" (.file (encodeMeta m)) (setEntry ("data_" ++ tmp) (.file d) es0)))) =
      some (.file d) := lookup_setEntry_self _ _ _
  have hfmeta : List.lookup "meta"
      (setEntry "data" (.file d) (removeEntry ("data_" ++ tmp)
        (setEntry "meta" (.file (encodeMeta m)) (setEntry ("data_" ++ tmp) (.file d) es0)))) =
      some (.file (encodeMeta m)) := by
    rw [lookup_setEntry_ne _ _ _ _ (fun h => data_ne_meta h.symm),
      lookup_removeEntry_ne _ _ _ (fun h => tmpName_ne_meta tmp h.symm),
      lookup_setEntry_self]
  refine ⟨fs3, ?_, ?_, ?_, ?_⟩
  · simp only [create_object, hguard1, hguard2, Bool.false_eq_true, if_false, hwf1, hwf2, hw3]
  · exact readFile_child fs3 p "data" _ d hes3 hfdata
  · exact readFile_child fs3 p "meta" _ (encodeMeta m) hes3 hfmeta
  · simp only [object_exists, Bool.and_eq_true]
    exact ⟨⟨isDir_of_lookup fs3 p _ hes3, isFile_child fs3 p "data" _ d hes3 hfdata⟩,
      isFile_child fs3 p "meta" _ (encodeMeta m) hes3 hfmeta⟩

theorem head_dropWhile_false (p : Char → Bool) (l : List Char) :
    ∀ c, (l.dropWhile p).head? = some c → p c = false := by
  induction l with
  | nil => intro c hc; simp at hc
  | cons x tl ih =>
    intro c hc
    cases hp : p x
    · rw [List.dropWhile_cons_of_neg (by simp [hp])] at hc
      simp at hc
      subst hc
      exact hp
    · rw [List.dropWhile_cons_of_pos hp] at hc
      exact ih c hc

/-- Claim C1 counterexample: with `root_dir = "/r"` and `uri_root = "/x"`,
the URI `"x/y"` does not start with the prefix `"/x"`, so exact prefix
removal would give `"/r/x/y"`; `str.lstrip` removes the leading characters
drawn from the set `{'/', 'x'}` and the code yields `"/r/y"`. -/
theorem claim_C1_counterexample :
    objectPath "/r" "/x" "x/y" = "/r/y" ∧
    objectPathClaimed "/r" "/x" "x/y" = "/r/x/y" ∧
    objectPath "/r" "/x" "x/y" ≠ objectPathClaimed "/r" "/x" "x/y" := by
  refine ⟨by decide, by decide, by decide⟩

/-- Claim C1 (amended): the physical object path equals `root_dir` joined
with the URI after removing from its left the longest run of characters
each of which occurs in `uri_root` (Python `str.lstrip` character-set
semantics), rather than exact prefix removal. -/
theorem claim_C1_amended (rootDir uriRoot uri : String) :
    ∃ pre suf, uri.data = pre ++ suf ∧
      (∀ c ∈ pre, uriRoot.data.contains c = true) ∧
      (∀ c, suf.head? = some c → uriRoot.data.contains c = false) ∧
      objectPath rootDir uriRoot uri = osJoin rootDir (String.mk suf) := by
  refine ⟨uri.data.takeWhile (fun c => uriRoot.data.contains c),
    uri.data.dropWhile (fun c => uriRoot.data.contains c), ?_, ?_, ?_, rfl⟩
  · exact (List.takeWhile_append_dropWhile (fun c => uriRoot.data.contains c) uri.data).symm
  · intro c hc
    exact List.mem_takeWhile_imp hc
  · exact head_dropWhile_false _ _

theorem entries_ne_nil_of_lookup (x : String) (es : List (String × FNode)) (n : FNode)
    (h : List.lookup x es = some n) : es ≠ [] := by
  intro he
  subst he
  simp at h

theorem parent_of_child (fs : FNode) (p : List String) (x : String) (n : FNode)
    (h : lookup fs (p ++ [x]) = some n) :
    ∃ es, lookup fs p = some (.dir es) ∧ List.lookup x es = some n := by
  rw [lookup_append] at h
  cases hl : lookup fs p with
  | none => rw [hl] at h; cases h
  | some n2 =>
    rw [hl] at h
    cases n2 with
    | file c => simp [lookup] at h
    | dir es =>
      simp only [Option.some_bind] at h
      rw [lookup_dir_single] at h
      exact ⟨es, rfl, h⟩

/-- Claim C2 (amended): with Meta committed, no committed Data file and any
surviving content in the object directory, the object reports as
non-existent; but the next `create_object` for that URI, with or without
`overwrite_existing`, raises the non-empty-directory error instead of
succeeding, so the temporary Data file is never reclaimed (the failed call
performs no filesystem mutation). -/
theorem claim_C2_amended (fs : FNode) (p : List String)
    (Hm : isFile fs (p ++ ["meta"]) = true)
    (Hd : pathExists fs (p ++ ["data"]) = false) :
    object_exists fs p = false ∧
    ∀ tmp dArg mArg over, create_object tmp fs p dArg mArg over =
      .error .nonEmptyDirectory := by
  obtain ⟨c, hc⟩ := isFile_eq_true fs _ Hm
  obtain ⟨es, hes, hlk⟩ := parent_of_child fs p "meta" (.file c) hc
  have hda : isFile fs (p ++ ["data"]) = false := by
    simp [isFile, pathExists_false_lookup fs _ Hd]
  have hob : object_exists fs p = false := by
    simp [object_exists, hda]
  have hie : (listdir fs p).isEmpty = false := by
    have hne := entries_ne_nil_of_lookup "meta" es (.file c) hlk
    simp only [listdir, hes]
    cases es with
    | nil => exact absurd rfl hne
    | cons e tl => rfl
  refine ⟨hob, fun tmp dArg mArg over => ?_⟩
  simp [create_object, hob, isDir_of_lookup fs p es hes, hie]

/-- Claim C2 counterexample: a concrete interrupted-create state (committed
`meta`, surviving temporary file `data_z`, no `data`): the object reports
as non-existent as the claim says, but the next `create_object` fails with
the non-empty-directory error whether or not overwrite is requested,
rather than succeeding and reclaiming the temporary file. -/
theorem claim_C2_counterexample :
    object_exists fsPartial ["o"] = false ∧
    create_object "u" fsPartial ["o"] "d" [] false = .error .nonEmptyDirectory ∧
    create_object "u" fsPartial ["o"] "d" [] true = .error .nonEmptyDirectory := by
  refine ⟨rfl, rfl, rfl⟩

theorem claim_C2_witness :
    object_exists fsPartial ["o"] = false ∧
    create_object "v" fsPartial ["o"] "d2" [] true = .error .nonEmptyDirectory := by
  have h := claim_C2_amended fsPartial ["o"] (by rfl) (by rfl)
  exact ⟨h.1, h.2 "v" "d2" [] true⟩

/-- Claim C5: when the resolved directory holds only one of the two
artifacts, every read/update/delete operation raises the not-found error;
each of these operations raises before performing any filesystem mutation,
so the stored files are unchanged (an `.error` result carries no mutated
state). -/
theorem claim_C5_partial_presence (fs : FNode) (p : List String) (mArg : Meta)
    (r : Bool) (dArg : String) (Hdir : isDir fs p = true)
    (Hone : isFile fs (p ++ ["data"]) ≠ isFile fs (p ++ ["meta"])) :
    get_meta fs p = .error .notFound ∧
    get_data fs p = .error .notFound ∧
    get_detail fs p = .error .notFound ∧
    update_meta fs p mArg r = .error .notFound ∧
    update_data fs p dArg = .error .notFound ∧
    delete_object fs p = .error .notFound := by
  have hob : object_exists fs p = false := by
    simp only [object_exists]
    cases hd : isFile fs (p ++ ["data"]) <;> cases hm : isFile fs (p ++ ["meta"])
    · simp
    · simp
    · simp
    · rw [hd, hm] at Hone; exact absurd rfl Hone
  exact ⟨by simp [get_meta, hob], by simp [get_data, hob], by simp [get_detail, hob],
    by simp [update_meta, hob], by simp [update_data, hob], by simp [delete_object, hob]⟩

theorem claim_C5_witness :
    get_meta fsDataOnly ["o"] = .error .notFound ∧
    get_data fsDataOnly ["o"] = .error .notFound ∧
    get_detail fsDataOnly ["o"] = .error .notFound ∧
    update_meta fsDataOnly ["o"] [("a", MValue.n 1)] false = .error .notFound ∧
    update_data fsDataOnly ["o"] "d2" = .error .notFound ∧
    delete_object fsDataOnly ["o"] = .error .notFound :=
  claim_C5_partial_presence fsDataOnly ["o"] [("a", MValue.n 1)] false "d2"
    (by rfl) (by decide)

/-- Claim C7: both metadata wire shapes decode to the same mapping (the
legacy string-wrapped encoding and the direct structured encoding of the
same mapping both yield it), and the legacy shape is recognized exactly by
a leading quote character: legacy-encoded documents start with one and
directly-encoded documents do not. -/
theorem claim_C7_codec (m : Meta) (Hwf : wfMeta m = true) :
    decodeMeta (legacyEncodeMeta m) = some m ∧
    decodeMeta (encodeMeta m) = some m ∧
    startsWithQuote (legacyEncodeMeta m) = true ∧
    startsWithQuote (encodeMeta m) = false := by
  exact ⟨decodeMeta_legacy m Hwf, decodeMeta_encodeMeta m Hwf, rfl, rfl⟩

theorem claim_C7_witness :
    decodeMeta (legacyEncodeMeta [("k", MValue.s "v")]) = some [("k", MValue.s "v")] ∧
    decodeMeta (encodeMeta [("k", MValue.s "v")]) = some [("k", MValue.s "v")] ∧
    startsWithQuote (legacyEncodeMeta [("k", MValue.s "v")]) = true ∧
    startsWithQuote (encodeMeta [("k", MValue.s "v")]) = false :=
  claim_C7_codec [("k", MValue.s "v")] (by decide)

theorem noFileOnPath_of_lookup_dir (fs : FNode) (p : List String)
    (es : List (String × FNode)) (h : lookup fs p = some (.dir es)) :
    noFileOnPath fs p = true := by
  induction p generalizing fs with
  | nil =>
    simp [lookup] at h
    subst h
    rfl
  | cons s rest ih =>
    cases fs with
    | file c => simp [lookup] at h
    | dir es0 =>
      simp only [lookup] at h
      cases hlk : List.lookup s es0 with
      | none => rw [hlk] at h; cases h
      | some n =>
        rw [hlk] at h
        simp only [noFileOnPath, hlk]
        exact ih n h

theorem children_none_of_free (fs : FNode) (p : List String)
    (Hnf : noFileOnPath fs p = true)
    (Hfree : pathExists fs p = false ∨ listdir fs p = []) :
    ∀ x, lookup fs (p ++ [x]) = none := by
  intro x
  rcases Hfree with hpe | hld
  · exact lookup_none_child fs p [x] (pathExists_false_lookup fs p hpe)
  · rcases noFileOnPath_lookup fs p Hnf with hl | ⟨es, hl⟩
    · exact lookup_none_child fs p [x] hl
    · have hes : es = [] := by
        simp only [listdir, hl] at hld
        exact List.map_eq_nil_iff.mp hld
      subst hes
      simp [lookup_child fs p x [] hl, List.lookup]

/-- Claim C3: round trip.  On a URI whose resolved directory holds no
object and is creatable (no file blocks the path; the directory is absent
or empty — the "valid" inputs of the claim), `create_object` with
`overwrite_existing = false` succeeds, `get_data` then returns exactly the
stored bytes, and `get_meta` returns a mapping equal to the stored meta. -/
theorem claim_C3_roundtrip (fs : FNode) (p : List String) (tmp dArg : String)
    (mArg : Meta) (Hwf : wfMeta mArg = true)
    (Hnf : noFileOnPath fs p = true)
    (Hno : object_exists fs p = false)
    (Hfree : pathExists fs p = false ∨ listdir fs p = []) :
    ((create_object tmp fs p dArg mArg false).bind (fun f => get_data f p)) = .ok dArg ∧
    ((create_object tmp fs p dArg mArg false).bind (fun f => get_meta f p)) = .ok mArg := by
  have hnone := children_none_of_free fs p Hnf Hfree
  obtain ⟨fs3, hok, hd, hm, hob⟩ := create_object_ok fs p tmp dArg mArg false Hnf
    (fun h => by rw [Hno] at h; cases h)
    (Or.inr Hfree)
    (by simp [pathExists, hnone ("data_" ++ tmp)])
  rw [hok]
  constructor
  · show get_data fs3 p = .ok dArg
    simp [get_data, hob, hd]
  · show get_meta fs3 p = .ok mArg
    simp [get_meta, hob, hm, decodeMeta_encodeMeta mArg Hwf]

theorem claim_C3_witness :
    ((create_object "u" fsEmptyRoot ["o"] "d" [("a", MValue.n 1)] false).bind
      (fun f => get_data f ["o"])) = .ok "d" ∧
    ((create_object "u" fsEmptyRoot ["o"] "d" [("a", MValue.n 1)] false).bind
      (fun f => get_meta f ["o"])) = .ok [("a", MValue.n 1)] :=
  claim_C3_roundtrip fsEmptyRoot ["o"] "u" "d" [("a", MValue.n 1)]
    (by decide) (by rfl) (by rfl) (Or.inl rfl)

/-- Claim C4: creating on an existing object without overwrite fails with
the already-exists error; creating where the target directory is non-empty
and holds no valid object fails with the non-empty-directory error; and
creating on an existing object with overwrite succeeds, after which
`get_data`/`get_meta` return the new data and meta. -/
theorem claim_C4_overwrite_guard (fs : FNode) (p : List String)
    (tmp d1 d2 : String) (m1 m2 : Meta)
    (Hex : object_exists fs p = true)
    (Hwf : wfMeta m2 = true)
    (Htmp : pathExists fs (p ++ ["data_" ++ tmp]) = false) :
    create_object tmp fs p d1 m1 false = .error .alreadyExists ∧
    (∀ (fs0 : FNode) (q : List String) (t0 d0 : String) (m0 : Meta) (over : Bool),
      object_exists fs0 q = false → isDir fs0 q = true → listdir fs0 q ≠ [] →
      create_object t0 fs0 q d0 m0 over = .error .nonEmptyDirectory) ∧
    ((create_object tmp fs p d2 m2 true).bind (fun f => get_data f p)) = .ok d2 ∧
    ((create_object tmp fs p d2 m2 true).bind (fun f => get_meta f p)) = .ok m2 := by
  have hdir : isDir fs p = true := by
    simp only [object_exists, Bool.and_eq_true] at Hex
    exact Hex.1.1
  obtain ⟨es, hes⟩ : ∃ es, lookup fs p = some (.dir es) := by
    simp only [isDir] at hdir
    cases hl : lookup fs p with
    | none => rw [hl] at hdir; simp at hdir
    | some n =>
      cases n with
      | file c => rw [hl] at hdir; simp at hdir
      | dir es => exact ⟨es, rfl⟩
  refine ⟨by simp [create_object, Hex], ?_, ?_⟩
  · intro fs0 q t0 d0 m0 over h0 hd0 hl0
    have hie : (listdir fs0 q).isEmpty = false := by
      cases hll : listdir fs0 q with
      | nil => exact absurd hll hl0
      | cons a b => rfl
    simp [create_object, h0, hd0, hie]
  · obtain ⟨fs3, hok, hd, hm, hob⟩ := create_object_ok fs p tmp d2 m2 true
      (noFileOnPath_of_lookup_dir fs p es hes)
      (fun _ => rfl)
      (Or.inl Hex)
      Htmp
    rw [hok]
    constructor
    · show get_data fs3 p = .ok d2
      simp [get_data, hob, hd]
    · show get_meta fs3 p = .ok m2
      simp [get_meta, hob, hm, decodeMeta_encodeMeta m2 Hwf]

theorem claim_C4_witness :
    create_object "u" fsWithObject ["o"] "d1" [("a", MValue.n 1)] false =
      .error .alreadyExists ∧
    create_object "u" fsWithObject ["b"] "d1" [("a", MValue.n 1)] true =
      .error .nonEmptyDirectory ∧
    ((create_object "u" fsWithObject ["o"] "d2" [("b", MValue.n 2)] true).bind
      (fun f => get_data f ["o"])) = .ok "d2" ∧
    ((create_object "u" fsWithObject ["o"] "d2" [("b", MValue.n 2)] true).bind
      (fun f => get_meta f ["o"])) = .ok [("b", MValue.n 2)] := by
  have h := claim_C4_overwrite_guard fsWithObject ["o"] "u" "d1" "d2"
    [("a", MValue.n 1)] [("b", MValue.n 2)] (by rfl) (by decide) (by rfl)
  exact ⟨h.1, h.2.1 fsWithObject ["b"] "u" "d1" [("a", MValue.n 1)] true
    (by rfl) (by rfl) (by decide), h.2.2.1, h.2.2.2⟩

theorem lookup_cons_mv (a k : String) (v : MValue) (es : Meta) :
    List.lookup a ((k, v) :: es) = if a = k then some v else List.lookup a es := by
  simp [List.lookup]
  split
  · next h => simp [beq_iff_eq] at h; simp [h]
  · next h => simp [beq_iff_eq] at h; simp [h]

theorem lookup_map_override (k : String) (prev m : Meta) :
    List.lookup k (prev.map (fun e =>
      match List.lookup e.1 m with
      | some w => (e.1, w)
      | none => e)) =
      (List.lookup k prev).map (fun v => (List.lookup k m).getD v) := by
  induction prev with
  | nil => simp
  | cons e tl ih =>
    obtain ⟨a, v⟩ := e
    by_cases h : k = a
    · subst h
      cases hm : List.lookup k m <;>
        simp [List.map_cons, hm, lookup_cons_mv]
    · cases hm : List.lookup a m <;>
        simp [List.map_cons, hm, lookup_cons_mv, h, ih]

theorem lookup_filter_true (k : String) (l : Meta) (p : String × MValue → Bool)
    (hp : ∀ v, p (k, v) = true) :
    List.lookup k (l.filter p) = List.lookup k l := by
  induction l with
  | nil => simp
  | cons e tl ih =>
    obtain ⟨a, v⟩ := e
    by_cases h : k = a
    · subst h
      simp [List.filter, hp v, lookup_cons_mv, ih]
    · cases hpe : p (a, v) <;> simp [List.filter, hpe, lookup_cons_mv, h, ih]

theorem lookup_dictUpdate (k : String) (prev m : Meta) :
    List.lookup k (dictUpdate prev m) = (List.lookup k m).or (List.lookup k prev) := by
  unfold dictUpdate
  rw [List.lookup_append, lookup_map_override]
  cases hp : List.lookup k prev with
  | some v =>
    cases hm : List.lookup k m <;> simp [hm]
  | none =>
    simp only [Option.map_none', Option.none_or]
    rw [lookup_filter_true k m _ (by intro v; simp [hp])]
    cases hm : List.lookup k m <;> simp [hm]

theorem mem_of_lookup_mv (k : String) (v : MValue) (l : Meta)
    (h : List.lookup k l = some v) : (k, v) ∈ l := by
  induction l with
  | nil => simp at h
  | cons e tl ih =>
    obtain ⟨a, w⟩ := e
    rw [lookup_cons_mv] at h
    by_cases h2 : k = a
    · rw [if_pos h2] at h
      cases h
      subst h2
      simp
    · rw [if_neg h2] at h
      simp [ih h]

theorem wfMeta_dictUpdate (prev m : Meta) (h1 : wfMeta prev = true)
    (h2 : wfMeta m = true) : wfMeta (dictUpdate prev m) = true := by
  unfold dictUpdate
  rw [wfMeta, List.all_append, Bool.and_eq_true]
  constructor
  · rw [List.all_map]
    apply List.all_eq_true.mpr
    intro e he
    have hwe := (List.all_eq_true.mp h1) e he
    simp only [Function.comp]
    cases hm : List.lookup e.1 m with
    | none => exact hwe
    | some w =>
      have hmem := mem_of_lookup_mv e.1 w m hm
      have hww := (List.all_eq_true.mp h2) (e.1, w) hmem
      simp only [Bool.and_eq_true] at hwe hww ⊢
      exact ⟨hwe.1, hww.2⟩
  · apply List.all_eq_true.mpr
    intro e he
    exact (List.all_eq_true.mp h2) e (List.mem_of_mem_filter he)

theorem isDir_eq (fs : FNode) (p : List String) (h : isDir fs p = true) :
    ∃ es, lookup fs p = some (.dir es) := by
  simp only [isDir] at h
  cases hl : lookup fs p with
  | none => rw [hl] at h; simp at h
  | some n =>
    cases n with
    | file c => rw [hl] at h; simp at h
    | dir es => exact ⟨es, rfl⟩

theorem update_meta_writes (fs : FNode) (p : List String) (m2 : Meta)
    (Hex : object_exists fs p = true) (Hwf2 : wfMeta m2 = true) :
    ∃ fs2, writeFile fs p "meta" (encodeMeta m2) = some fs2 ∧ get_meta fs2 p = .ok m2 := by
  have hx := Hex
  simp only [object_exists, Bool.and_eq_true] at hx
  obtain ⟨es, hes⟩ := isDir_eq fs p hx.1.1
  obtain ⟨cd, hcd⟩ := isFile_eq_true fs _ hx.1.2
  obtain ⟨cm, hcm⟩ := isFile_eq_true fs _ hx.2
  have hcd2 : List.lookup "data" es = some (.file cd) := by
    rw [← lookup_child fs p "data" es hes]; exact hcd
  have hcm2 : List.lookup "meta" es = some (.file cm) := by
    rw [← lookup_child fs p "meta" es hes]; exact hcm
  obtain ⟨fs2, hw, hes2⟩ := openW_spec fs p es "meta" (encodeMeta m2) hes
    (by intro es2 hcon; rw [hcm2] at hcon; cases hcon)
  have hwf : writeFile fs p "meta" (encodeMeta m2) = some fs2 := by
    simp [writeFile, mkdirp_of_isDir fs p es hes, hw]
  have hfm : List.lookup "meta" (setEntry "meta" (.file (encodeMeta m2)) es) =
      some (.file (encodeMeta m2)) := lookup_setEntry_self _ _ _
  have hfd : List.lookup "data" (setEntry "meta" (.file (encodeMeta m2)) es) =
      some (.file cd) := by
    rw [lookup_setEntry_ne _ _ _ _ data_ne_meta, hcd2]
  have hob2 : object_exists fs2 p = true := by
    simp only [object_exists, Bool.and_eq_true]
    exact ⟨⟨isDir_of_lookup fs2 p _ hes2, isFile_child fs2 p "data" _ cd hes2 hfd⟩,
      isFile_child fs2 p "meta" _ (encodeMeta m2) hes2 hfm⟩
  refine ⟨fs2, hwf, ?_⟩
  simp [get_meta, hob2, readFile_child fs2 p "meta" _ (encodeMeta m2) hes2 hfm,
    decodeMeta_encodeMeta m2 Hwf2]

/-- Claim C6: on an existing object whose stored meta is `prev`,
`update_meta` with `replace = false` stores the Python `dict.update` merge
of `prev` with the supplied mapping — keys of the new mapping override,
all other stored keys are retained (the lookup characterization) — while
`replace = true` makes the stored meta exactly the supplied mapping. -/
theorem claim_C6_update_meta (fs : FNode) (p : List String) (prev mArg : Meta)
    (Hex : object_exists fs p = true)
    (Hst : readFile fs (p ++ ["meta"]) = some (encodeMeta prev))
    (Hwfp : wfMeta prev = true) (Hwfm : wfMeta mArg = true) :
    ((update_meta fs p mArg false).bind (fun f => get_meta f p)) =
      .ok (dictUpdate prev mArg) ∧
    (∀ k, List.lookup k (dictUpdate prev mArg) =
      (List.lookup k mArg).or (List.lookup k prev)) ∧
    ((update_meta fs p mArg true).bind (fun f => get_meta f p)) = .ok mArg := by
  have hgm : get_meta fs p = .ok prev := by
    simp [get_meta, Hex, Hst, decodeMeta_encodeMeta prev Hwfp]
  obtain ⟨fs2, hwf2, hget2⟩ := update_meta_writes fs p (dictUpdate prev mArg) Hex
    (wfMeta_dictUpdate prev mArg Hwfp Hwfm)
  obtain ⟨fs3, hwf3, hget3⟩ := update_meta_writes fs p mArg Hex Hwfm
  refine ⟨?_, fun k => lookup_dictUpdate k prev mArg, ?_⟩
  · have hu : update_meta fs p mArg false = .ok fs2 := by
      simp [update_meta, Hex, hgm, hwf2]
    rw [hu]
    exact hget2
  · have hu : update_meta fs p mArg true = .ok fs3 := by
      simp [update_meta, Hex, hwf3]
    rw [hu]
    exact hget3

theorem claim_C6_witness :
    ((update_meta fsMetaA1 ["o"] [("b", MValue.n 2)] false).bind
      (fun f => get_meta f ["o"])) = .ok [("a", MValue.n 1), ("b", MValue.n 2)] ∧
    ((update_meta fsMetaA1 ["o"] [("b", MValue.n 2)] true).bind
      (fun f => get_meta f ["o"])) = .ok [("b", MValue.n 2)] := by
  have h := claim_C6_update_meta fsMetaA1 ["o"] [("a", MValue.n 1)] [("b", MValue.n 2)]
    (by rfl) (by rfl) (by decide) (by decide)
  exact ⟨h.1, h.2.2⟩

theorem name_ne_tmpSuffix (name suffix : String) : name ≠ name ++ "_" ++ suffix := by
  intro h
  have h2 := congrArg String.length h
  simp only [String.length_append] at h2
  have h3 : ("_" : String).length = 1 := rfl
  omega

/-- Claim C8: if `_write` fails at any step before the final rename (the
injected open/write/flush/fsync faults, or the `mkdir` of the parent
failing), the call returns the raised error, the temporary file is absent
afterwards (removed by the handler if it had been created), and the
content at the target path — or its absence — is exactly as before the
call; only the rename step ever modifies the target path. -/
theorem claim_C8_write_atomic (fs : FNode) (p : List String)
    (name suffix content : String) (fault : WriteFault)
    (Hfresh : pathExists fs (p ++ [name ++ "_" ++ suffix]) = false)
    (Hfail : fault ≠ WriteFault.noFault ∨ mkdirp fs p = none) :
    ((write fs p name suffix content fault).1).isSome = true ∧
    lookup (write fs p name suffix content fault).2 (p ++ [name]) =
      lookup fs (p ++ [name]) ∧
    pathExists (write fs p name suffix content fault).2
      (p ++ [name ++ "_" ++ suffix]) = false := by
  cases hmk : mkdirp fs p with
  | none => simp [write, hmk, Hfresh]
  | some fs0 =>
    have hfault : fault ≠ WriteFault.noFault := by
      rcases Hfail with h | h
      · exact h
      · rw [hmk] at h; cases h
    have hext : ∀ x : String, lookup fs0 (p ++ [x]) = lookup fs (p ++ [x]) :=
      fun x => mkdirp_lookup_ext fs p fs0 hmk x []
    cases fault with
    | noFault => exact absurd rfl hfault
    | failOpen =>
      simp only [write, hmk]
      refine ⟨rfl, hext name, ?_⟩
      simp [pathExists, hext (name ++ "_" ++ suffix),
        pathExists_false_lookup fs _ Hfresh]
    | failWrite hw =>
      obtain ⟨es0, hes0⟩ := mkdirp_lookup_dir fs p fs0 hmk
      have hx0 : ∀ x, List.lookup x es0 = lookup fs (p ++ [x]) := fun x => by
        rw [← lookup_child fs0 p x es0 hes0]; exact hext x
      have htmpn : List.lookup (name ++ "_" ++ suffix) es0 = none := by
        rw [hx0]; exact pathExists_false_lookup fs _ Hfresh
      obtain ⟨fs1, hw1, hes1⟩ := openW_spec fs0 p es0 (name ++ "_" ++ suffix) hw hes0
        (by intro es2 hcon; rw [htmpn] at hcon; cases hcon)
      have hisf : isFile fs1 (p ++ [name ++ "_" ++ suffix]) = true :=
        isFile_child fs1 p _ _ hw hes1 (lookup_setEntry_self _ _ _)
      obtain ⟨fs2, hr, hes2⟩ := removeFileIn_spec fs1 p _ (name ++ "_" ++ suffix) hw hes1
        (lookup_setEntry_self _ _ _)
      have hred : write fs p name suffix content (.failWrite hw) =
          (some .ioFailure, fs2) := by
        simp [write, hmk, hw1, hisf, hr]
      rw [hred]
      refine ⟨rfl, ?_, ?_⟩
      · rw [lookup_child fs2 p name _ hes2,
          lookup_removeEntry_ne _ _ _ (name_ne_tmpSuffix name suffix),
          lookup_setEntry_ne _ _ _ _ (name_ne_tmpSuffix name suffix), hx0]
      · simp [pathExists, lookup_child fs2 p _ _ hes2, lookup_removeEntry_self]

theorem claim_C8_witness :
    ((write fsWriteTarget ["o"] "data" "u" "new" (WriteFault.failWrite "par")).1).isSome
      = true ∧
    lookup (write fsWriteTarget ["o"] "data" "u" "new" (WriteFault.failWrite "par")).2
      (["o"] ++ ["data"]) = lookup fsWriteTarget (["o"] ++ ["data"]) ∧
    pathExists (write fsWriteTarget ["o"] "data" "u" "new" (WriteFault.failWrite "par")).2
      (["o"] ++ ["data" ++ "_" ++ "u"]) = false :=
  claim_C8_write_atomic fsWriteTarget ["o"] "data" "u" "new"
    (WriteFault.failWrite "par") (by rfl)
    (Or.inl (fun h => WriteFault.noConfusion h))

/-- Claim C9 counterexample: `x` and `y` are both valid objects, and `x`'s
directory contains a subdirectory (not a regular file) named `t`.  The
code's tag filter uses `os.path.exists`, so it excludes `x`; the claim's
"contains a file named after that tag" predicts that `x` is included. -/
theorem claim_C9_counterexample :
    list_objects fsTwoObjects [] "p" (some "t") = .ok ["p/y"] ∧
    list_objects_claimed fsTwoObjects [] "p" (some "t") = .ok ["p/x", "p/y"] ∧
    (["p/y"] : List String) ≠ ["p/x", "p/y"] :=
  ⟨rfl, rfl, by decide⟩

/-- Claim C9 (amended): `list_objects` raises the invalid-path error when
the resolved path is not a directory, and otherwise returns exactly the
URIs of the immediate children that are valid objects, excluding — when a
non-empty `without_tag` is given (Python treats an empty tag string as no
tag) — every valid object whose directory contains an *entry of any kind*
(regular file or directory, per `os.path.exists`) named after the tag. -/
theorem claim_C9_list_objects (fs : FNode) (p : List String) (path : String)
    (wt : Option String) (Hwt : wt ≠ some "") :
    list_objects fs p path wt = list_objects_spec fs p path wt := by
  unfold list_objects list_objects_spec
  cases hl : lookup fs p with
  | none => rfl
  | some n =>
    cases n with
    | file c => rfl
    | dir es =>
      cases wt with
      | none => rfl
      | some t =>
        have ht : ¬(t = "") := fun h => Hwt (by rw [h])
        have hfg : (fun name => if object_exists fs (p ++ [name]) &&
              (decide (t = "") || !pathExists fs (p ++ [name, t])) then
              some (osJoin path name) else none) =
            (fun name => if object_exists fs (p ++ [name]) &&
              (Option.all (fun t2 => !pathExists fs (p ++ [name, t2])) (some t)) then
              some (osJoin path name) else none) := by
          funext name
          simp [ht, Option.all]
        rw [hfg]

theorem claim_C9_witness :
    list_objects fsTwoObjects [] "p" (some "t") =
      list_objects_spec fsTwoObjects [] "p" (some "t") :=
  claim_C9_list_objects fsTwoObjects [] "p" (some "t") (by simp)

/-- Claim C10: `tag_object` performs no object-existence check — it
succeeds on any existing directory, valid object or not — and writes the
marker file directly with `open(..., "w")` (no temporary file, no
`_write`): the file named after the tag is created or truncated to exactly
`data or ""`.  Consequently `tag = "data"` or `tag = "meta"` overwrites the
object's persisted Data or Meta artifact, and an absent or empty `data`
leaves the marker file empty. -/
theorem claim_C10_tag_object (fs : FNode) (p : List String) (tag : String)
    (dat : Option String)
    (Hdir : isDir fs p = true)
    (Hnd : isDir fs (p ++ [tag]) = false) :
    ((tag_object fs p tag dat).map (fun f => readFile f (p ++ [tag]))) =
      .ok (some (dat.getD "")) ∧
    (tag = "data" → ((tag_object fs p tag dat).map
      (fun f => readFile f (p ++ ["data"]))) = .ok (some (dat.getD ""))) ∧
    (tag = "meta" → ((tag_object fs p tag dat).map
      (fun f => readFile f (p ++ ["meta"]))) = .ok (some (dat.getD ""))) ∧
    (dat = none → ((tag_object fs p tag dat).map
      (fun f => readFile f (p ++ [tag]))) = .ok (some "")) := by
  obtain ⟨es, hes⟩ := isDir_eq fs p Hdir
  obtain ⟨fs2, hw, hes2⟩ := openW_spec fs p es tag (dat.getD "") hes
    (by
      intro es2 hcon
      have : isDir fs (p ++ [tag]) = true := by
        simp [isDir, lookup_child fs p tag es hes, hcon]
      rw [this] at Hnd
      cases Hnd)
  have htag : tag_object fs p tag dat = .ok fs2 := by
    simp [tag_object, hw]
  have hread : readFile fs2 (p ++ [tag]) = some (dat.getD "") :=
    readFile_child fs2 p tag _ (dat.getD "") hes2 (lookup_setEntry_self _ _ _)
  have hmain : ((tag_object fs p tag dat).map (fun f => readFile f (p ++ [tag]))) =
      .ok (some (dat.getD "")) := by
    rw [htag]
    simp [Except.map, hread]
  refine ⟨hmain, ?_, ?_, ?_⟩
  · intro h; subst h; exact hmain
  · intro h; subst h; exact hmain
  · intro h; subst h; exact hmain

theorem claim_C10_witness :
    ((tag_object fsNoMeta ["o"] "done" (some "x")).map
      (fun f => readFile f (["o"] ++ ["done"]))) = .ok (some "x") ∧
    ((tag_object fsNoMeta ["o"] "data" none).map
      (fun f => readFile f (["o"] ++ ["data"]))) = .ok (some "") := by
  have h1 := claim_C10_tag_object fsNoMeta ["o"] "done" (some "x") (by rfl) (by rfl)
  have h2 := claim_C10_tag_object fsNoMeta ["o"] "data" none (by rfl) (by rfl)
  exact ⟨h1.1, h2.2.2.2 rfl⟩

end FsStore

